import Mathlib

set_option linter.unusedSectionVars false

/-!
Shallow embedding of `src/data_structures/binary_search_tree.rs`,
`src/ciphers/hashing_traits.rs` and `src/ciphers/kerninghan.rs`.

The Rust tree is `BinarySearchTree { root: Option<Arc<Node<T>>> }` with
`Node { value, left: Option<Arc<Node>>, right: Option<Arc<Node>>, height: usize }`.
An optional node pointer is modelled as `Tree α` with constructor `nil` for
`None`; `Arc` sharing is irrelevant to functional behaviour because every
mutation path clones, so the operations below are the value-level semantics
of the source.  The element type is any linear order, matching `T: Ord`.
-/

universe u

namespace BST

inductive Tree (α : Type u) : Type u where
  | nil : Tree α
  | node (value : α) (left : Tree α) (right : Tree α) (height : Nat) : Tree α
deriving DecidableEq, Repr

namespace Tree

variable {α : Type u}

/-- `map_or(0, |node| node.height)` — height of an optional subtree. -/
def heightOf : Tree α → Nat
  | .nil => 0
  | .node _ _ _ h => h

/-- Number of stored values (used only for termination measures). -/
def size : Tree α → Nat
  | .nil => 0
  | .node _ l r _ => 1 + size l + size r

/-- In-order traversal, the mathematical contents of a tree. -/
def inorder : Tree α → List α
  | .nil => []
  | .node v l r _ => inorder l ++ v :: inorder r

/-- `Node::update_height`: `self.height = 1 + max(h(left), h(right))`. -/
def update_height : Tree α → Tree α
  | .nil => .nil
  | .node v l r _ => .node v l r (1 + max (heightOf l) (heightOf r))

/-- `Node::balance_factor`: `left_height - right_height`.
The source casts the `usize` heights to `i8`; the cast is the identity for
heights below 128, which covers every tree a machine can hold, so the factor
is modelled as the exact integer difference. -/
def balance_factor : Tree α → Int
  | .nil => 0
  | .node _ l r _ => (heightOf l : Int) - (heightOf r : Int)

/-- `Node::rotate_right`.  `self.left.take()` absent → return self unchanged;
otherwise the left child is promoted, `self.left = new_root.right`,
`self.update_height()`, `new_root.right = self`, `new_root.update_height()`. -/
def rotate_right : Tree α → Tree α
  | .node v (.node lv ll lr _) r _ =>
      .node lv ll (.node v lr r (1 + max (heightOf lr) (heightOf r)))
        (1 + max (heightOf ll) (1 + max (heightOf lr) (heightOf r)))
  | t => t

/-- `Node::rotate_left`, the mirror of `rotate_right`. -/
def rotate_left : Tree α → Tree α
  | .node v l (.node rv rl rr _) _ =>
      .node rv (.node v l rl (1 + max (heightOf l) (heightOf rl))) rr
        (1 + max (1 + max (heightOf l) (heightOf rl)) (heightOf rr))
  | t => t

/-- `Node::balance`: if the factor is `> 1` first left-rotate the left child
when it is right-heavy, then right-rotate; mirror for `< -1`; else unchanged. -/
def balance : Tree α → Tree α
  | .nil => .nil
  | .node v l r h =>
    let bf := balance_factor (Tree.node v l r h)
    if 1 < bf then
      if balance_factor l < 0 then rotate_right (.node v (rotate_left l) r h)
      else rotate_right (.node v l r h)
    else if bf < -1 then
      if 0 < balance_factor r then rotate_left (.node v l (rotate_right r) h)
      else rotate_left (.node v l r h)
    else .node v l r h

variable [LinearOrder α]

/-- `Node::search` (and `BinarySearchTree::search`, whose `None` root gives
`false`): three-way compare of the node value against the query. -/
def search : Tree α → α → Bool
  | .nil, _ => false
  | .node v l r _, x =>
    if x < v then search l x          -- Ordering::Greater → left
    else if v < x then search r x     -- Ordering::Less → right
    else true                          -- Ordering::Equal

/-- `Node::insert` (and `BinarySearchTree::insert`, whose `None` root builds
`Node::new(value)`): descend by comparison, duplicates return self before any
height update; otherwise `update_height` then `balance` on the way out. -/
def insert : Tree α → α → Tree α
  | .nil, x => .node x .nil .nil 1
  | .node v l r h, x =>
    if v < x then balance (update_height (.node v l (insert r x) h))
    else if x < v then balance (update_height (.node v (insert l x) r h))
    else .node v l r h

/-- `Node::minimum` on a node with value `v` and left subtree `l`:
`self.left.map_or(&self.value, |node| node.minimum())`. -/
def minimumFrom (v : α) : Tree α → α
  | .nil => v
  | .node lv ll _ _ => minimumFrom lv ll

/-- `BinarySearchTree::minimum`: `None` root gives no value. -/
def minimum : Tree α → Option α
  | .nil => none
  | .node v l _ _ => some (minimumFrom v l)

/-- `Node::maximum` on a node with value `v` and right subtree `r`. -/
def maximumFrom (v : α) : Tree α → α
  | .nil => v
  | .node rv _ rr _ => maximumFrom rv rr

/-- `BinarySearchTree::maximum`. -/
def maximum : Tree α → Option α
  | .nil => none
  | .node v _ r _ => some (maximumFrom v r)

/-- `Node::floor` (and the `and_then` at the tree level): equal → this value;
node greater → recurse left; node less → recurse right, `.or(Some(self.value))`. -/
def floor : Tree α → α → Option α
  | .nil, _ => none
  | .node v l r _, x =>
    if x < v then floor l x
    else if v < x then
      match floor r x with
      | some w => some w
      | none => some v
    else some v

/-- `Node::ceil`, the mirror of `floor`. -/
def ceil : Tree α → α → Option α
  | .nil, _ => none
  | .node v l r _, x =>
    if v < x then ceil r x
    else if x < v then
      match ceil l x with
      | some w => some w
      | none => some v
    else some v

/-- `Node::remove` together with `BinarySearchTree::remove` (a `None` root is
left untouched).  Note the source calls `balance` but never `update_height`
on the return path, and in the `(Some(left), Some(right))` arm the binding
produced by `node.left.take()` is never used or restored, so the node's left
subtree is dropped: the rebuilt node has no left child. -/
def remove : Tree α → α → Tree α
  | .nil, _ => .nil
  | .node v l r h, x =>
    if x < v then                      -- Ordering::Less: descend left
      match l with
      | .nil => .node v l r h
      | .node _ _ _ _ => balance (.node v (remove l x) r h)
    else if v < x then                 -- Ordering::Greater: descend right
      match r with
      | .nil => .node v l r h
      | .node _ _ _ _ => balance (.node v l (remove r x) h)
    else                               -- Ordering::Equal
      match l, r with
      | .nil, .nil => .nil
      | .node _ _ _ _, .nil => l
      | .nil, .node _ _ _ _ => r
      | .node _ _ _ _, .node rv rl _ _ =>
          let m := minimumFrom rv rl
          balance (.node m .nil (remove r m) h)

/-- True structural height of a subtree, ignoring the cached field.  This is
the measuring stick of the specification's balance invariant. -/
def trueHeight : Tree α → Nat
  | .nil => 0
  | .node _ l r _ => 1 + max (trueHeight l) (trueHeight r)

/-- The AVL balance invariant of the specification, measured with true
subtree heights: at every node the two child heights differ by at most 1. -/
def avlBalanced : Tree α → Bool
  | .nil => true
  | .node _ l r _ =>
    avlBalanced l && avlBalanced r &&
      decide ((trueHeight l : Int) - trueHeight r ≤ 1) &&
      decide ((trueHeight r : Int) - trueHeight l ≤ 1)

/-- The specification's height invariant: every node's cached height equals
`1 + max(height(left), height(right))` over the cached child heights. -/
def heightsConsistent : Tree α → Bool
  | .nil => true
  | .node _ l r h =>
    heightsConsistent l && heightsConsistent r &&
      (h == 1 + max (heightOf l) (heightOf r))

/-- The search-tree property: the in-order traversal is strictly ascending.
This is equivalent to the node-wise left-smaller/right-greater condition and
implies that values are unique. -/
def Ordered (t : Tree α) : Prop := (inorder t).Sorted (· < ·)

instance (t : Tree α) : Decidable (Ordered t) :=
  inferInstanceAs (Decidable ((inorder t).Sorted (· < ·)))

/-- An editing step of the public interface. -/
inductive Op (α : Type u) : Type u where
  | ins (v : α) : Op α
  | del (v : α) : Op α
deriving DecidableEq, Repr

/-- Apply one public operation. -/
def applyOp (t : Tree α) : Op α → Tree α
  | .ins v => insert t v
  | .del v => remove t v

/-- The tree obtained by running a sequence of public operations on the
empty tree (`BinarySearchTree::new` has root `None`). -/
def run (ops : List (Op α)) : Tree α := List.foldl applyOp .nil ops

/-- One step of the reference membership semantics: an insertion of `v`
makes it a member, a removal of `v` makes it a non-member, operations on
other values leave its membership alone. -/
def memStep (v : α) (b : Bool) : Op α → Bool
  | .ins w => if w = v then true else b
  | .del w => if w = v then false else b

/-- Reference membership semantics of a sequence of operations: a value is a
member exactly when its last mention in the sequence is an insertion. -/
def memAfter (ops : List (Op α)) (v : α) : Bool :=
  List.foldl (memStep v) false ops

/-!  The in-order iterator.  The Rust iterator keeps a `Vec<&Node>` stack;
each popped node contributes its value and its right child, which is all the
iterator ever reads from a popped entry, so a stack entry is modelled as the
pair (value, right subtree), with the head of the list as the top. -/

/-- `BinarySearchTreeIter::stack_push_left`: walk down the left spine of
`node`, pushing every visited node. -/
def stack_push_left : List (α × Tree α) → Tree α → List (α × Tree α)
  | s, .nil => s
  | s, .node v l r _ => stack_push_left ((v, r) :: s) l

/-- `BinarySearchTreeIter::new`: push the left spine of the root; a `None`
root leaves the stack empty. -/
def iterInit (t : Tree α) : List (α × Tree α) := stack_push_left [] t

/-- `BinarySearchTreeIter::next`: pop the top node, push the left spine of
its right child, yield the popped value; an empty stack yields nothing. -/
def iterNext : List (α × Tree α) → Option α × List (α × Tree α)
  | [] => (none, [])
  | (v, r) :: s => (some v, stack_push_left s r)

/-- Fuel-indexed repeated `iterNext`, collecting every yielded value. -/
def drainAux : Nat → List (α × Tree α) → List α
  | 0, _ => []
  | _, [] => []
  | fuel + 1, (v, r) :: s => v :: drainAux fuel (stack_push_left s r)

/-- Total number of tree nodes held on the stack: the fuel that provably
suffices to exhaust the iterator. -/
def stackWeight (s : List (α × Tree α)) : Nat :=
  List.foldr (fun p acc => 1 + size p.2 + acc) 0 s

/-- The complete sequence of values yielded by the iterator of `t`. -/
def drain (t : Tree α) : List α :=
  drainAux (stackWeight (iterInit t)) (iterInit t)

/-- Specification of a stack's remaining output: each entry contributes its
value followed by the in-order traversal of its right subtree. -/
def stackContents (s : List (α × Tree α)) : List α :=
  List.foldr (fun p acc => p.1 :: inorder p.2 ++ acc) [] s

/-- Build a valid AVL tree of seven values plus a grown left arm, then delete
the two deepest right-side values; the removal path never refreshes cached
heights, so the right subtree's cached height stays at its old value. -/
def avlCounterOps : List (Op Int) :=
  [.ins 8, .ins 4, .ins 12, .ins 2, .ins 6, .ins 10, .ins 14, .ins 1,
   .del 10, .del 14]

/-- Insert a root and a left leaf, then delete the leaf: the root keeps its
cached height 2 although both children are now absent. -/
def heightCounterOps : List (Op Int) := [.ins 2, .ins 1, .del 1]

/-- Delete a node that has exactly one child: the node is spliced out and the
parent keeps a cached height computed for the taller pre-removal subtree. -/
def dupInsertCounterOps : List (Op Int) :=
  [.ins 10, .ins 5, .ins 20, .ins 15, .del 20]

/-- Whittle the right subtree down with removals (its cached height never
drops), then delete its root: the rebalancing rotation manufactures a node
whose cached balance factor is 2, primed to rotate on the next touch. -/
def removeNoopCounterOps : List (Op Int) :=
  [.ins 10, .ins 5, .ins 13, .ins 3, .ins 8, .ins 12, .ins 15,
   .ins 2, .ins 4, .ins 7, .ins 9, .ins 11, .ins 14, .ins 1, .ins 6,
   .del 12, .del 15, .del 11, .del 13]

end Tree

/-!  `HMAC::add_key` from `src/ciphers/hashing_traits.rs`.  Bytes are `Nat`s
below 256; the two hasher states only ever absorb byte strings, so the
observable effect of `add_key` is the pair of padded keys fed to them.  The
`copy_from_slice` call copies `key` into the `[0; KEY_BYTES]` buffer and, as
in Rust, is only defined when the two lengths coincide; a shorter key aborts
the process, modelled by the `panic` outcome. -/

namespace HMAC

inductive AddKeyResult : Type where
  | ok (innerKey outerKey : List Nat) : AddKeyResult
  | keyTooLong : AddKeyResult
  | panic : AddKeyResult
deriving DecidableEq, Repr

/-- `HMAC::add_key`: `key.len().cmp(&KEY_BYTES)` — `Less | Equal` builds the
ipad/opad-masked keys and feeds them to the two states, `Greater` returns the
"key too long" error.  Inside the first arm `copy_from_slice` panics unless
`key.len() == KEY_BYTES`. -/
def add_key (KEY_BYTES : Nat) (key : List Nat) : AddKeyResult :=
  if key.length ≤ KEY_BYTES then
    if key.length = KEY_BYTES then
      let inner := key.map (fun b => b ^^^ 0x36)
      AddKeyResult.ok inner (inner.map (fun b => b ^^^ 0x6a))
    else AddKeyResult.panic
  else AddKeyResult.keyTooLong

end HMAC

/-- `kerninghan` from `src/ciphers/kerninghan.rs`: clear the lowest set bit
until zero, counting the iterations.  `u32` values are the naturals below
`2^32`; no operation in the loop overflows (`n - 1` is guarded by `n > 0`). -/
def kerninghan (n : Nat) : Nat :=
  if h : n = 0 then 0
  else kerninghan (n &&& (n - 1)) + 1
termination_by n
decreasing_by
  exact Nat.lt_of_le_of_lt Nat.and_le_right (Nat.sub_lt (Nat.pos_of_ne_zero h) Nat.one_pos)

/-- The number of set bits in the binary representation of `n`, written as
the standard binary recursion. -/
def setBitCount (n : Nat) : Nat :=
  if n = 0 then 0
  else n % 2 + setBitCount (n / 2)
termination_by n
decreasing_by
  exact Nat.div_lt_self (Nat.pos_of_ne_zero (by assumption)) Nat.one_lt_two

end BST

/-! ## Basic preservation lemmas -/

namespace BST

namespace Tree

variable {α : Type u}

theorem inorder_rotate_right (t : Tree α) : inorder (rotate_right t) = inorder t := by
  match t with
  | .nil => rfl
  | .node v .nil r h => rfl
  | .node v (.node lv ll lr lh) r h =>
    simp [rotate_right, inorder, List.append_assoc]

theorem inorder_rotate_left (t : Tree α) : inorder (rotate_left t) = inorder t := by
  match t with
  | .nil => rfl
  | .node v l .nil h => rfl
  | .node v l (.node rv rl rr rh) h =>
    simp [rotate_left, inorder, List.append_assoc]

theorem inorder_update_height (t : Tree α) : inorder (update_height t) = inorder t := by
  cases t <;> rfl

theorem inorder_balance (t : Tree α) : inorder (balance t) = inorder t := by
  match t with
  | .nil => rfl
  | .node v l r h =>
    simp only [balance]
    repeat' split
    all_goals
      simp [inorder, inorder_rotate_right, inorder_rotate_left]

variable [LinearOrder α]

theorem ordered_balance {t : Tree α} : Ordered (balance t) ↔ Ordered t := by
  unfold Ordered; rw [inorder_balance]

theorem ordered_update_height {t : Tree α} : Ordered (update_height t) ↔ Ordered t := by
  unfold Ordered; rw [inorder_update_height]

theorem ordered_node {v : α} {l r : Tree α} {h : Nat} :
    Ordered (Tree.node v l r h) ↔
      Ordered l ∧ Ordered r ∧
        (∀ y ∈ inorder l, y < v) ∧ (∀ y ∈ inorder r, v < y) := by
  show (inorder l ++ v :: inorder r).Pairwise (· < ·) ↔ _
  rw [List.pairwise_append, List.pairwise_cons]
  constructor
  · rintro ⟨hl, ⟨hvr, hr⟩, hcross⟩
    exact ⟨hl, hr, fun y hy => hcross y hy v (List.mem_cons_self v _), hvr⟩
  · rintro ⟨hl, hr, hlv, hvr⟩
    refine ⟨hl, ⟨hvr, hr⟩, fun a ha b hb => ?_⟩
    rcases List.mem_cons.mp hb with rfl | hb
    · exact hlv a ha
    · exact (hlv a ha).trans (hvr b hb)

end Tree

end BST

/-! ## Claim theorems settled by evaluation, and the rotation claim -/

namespace BST

open Tree

/-- C1: the claimed invariant fails on the code.  After the operation
sequence `avlCounterOps` (eight inserts, then two removes) the in-order
traversal is still strictly ascending, but the AVL balance invariant
measured with true subtree heights is violated: the root's subtrees have
true heights 3 and 1.  `Node::remove` calls `balance` without
`update_height`, so the rebalancing decisions read stale cached heights. -/
theorem avl_invariant_violated_after_removals :
    avlBalanced (run avlCounterOps) = false ∧ Ordered (run avlCounterOps) := by
  constructor
  · decide
  · decide

/-- C2: the claimed height invariant fails on the code.  Running
`[insert 2, insert 1, remove 1]` leaves the root with cached height 2 even
though both children are absent (`1 + max(0, 0) = 1`): `Node::remove` never
re-runs `update_height` on the ancestors of the removed node. -/
theorem height_invariant_violated_after_removal :
    run heightCounterOps = Tree.node 2 Tree.nil Tree.nil 2 ∧
      heightsConsistent (run heightCounterOps) = false := by
  constructor
  · decide
  · decide

/-- C3: the claim fails on the code.  `HMAC::add_key` copies the key into a
`[0; KEY_BYTES]` buffer with `copy_from_slice`, which requires equal
lengths: a key strictly shorter than the block aborts instead of returning
`Ok(())`.  The failing input is the repository's own test (4-byte key,
64-byte block). -/
theorem add_key_panics_on_short_key :
    HMAC.add_key 64 [0xde, 0xad, 0xbe, 0xef] = HMAC.AddKeyResult.panic := by
  decide

/-- C7: the claim fails on the code.  After `dupInsertCounterOps` the value 5
is stored, yet inserting 5 again returns a different tree: the re-insert
path re-runs `update_height` on the root, whose cached height had been left
stale (3 instead of 2) by the earlier removal. -/
theorem duplicate_insert_not_noop :
    search (run dupInsertCounterOps) 5 = true ∧
      Tree.insert (run dupInsertCounterOps) 5 ≠ run dupInsertCounterOps := by
  constructor
  · decide
  · decide

/-- C8: the claim fails on the code.  After `removeNoopCounterOps` the value
16 is absent, yet `remove 16` returns a restructured tree: the removal path
walks through a node whose stale cached balance factor is 2, and `balance`
rotates it. -/
theorem remove_absent_not_noop :
    search (run removeNoopCounterOps) 16 = false ∧
      remove (run removeNoopCounterOps) 16 ≠ run removeNoopCounterOps := by
  constructor
  · decide
  · decide

/-- C10: both rotations preserve the in-order value sequence exactly — no
value is added, dropped, or reordered — whenever the rotated child is
present (the rotation is the identity otherwise as a defensive guard). -/
theorem rotations_preserve_inorder {α : Type u} (v : α) (l r : Tree α) (h : Nat) :
    (l ≠ Tree.nil →
      inorder (rotate_right (Tree.node v l r h)) = inorder (Tree.node v l r h)) ∧
    (r ≠ Tree.nil →
      inorder (rotate_left (Tree.node v l r h)) = inorder (Tree.node v l r h)) :=
  ⟨fun _ => inorder_rotate_right _, fun _ => inorder_rotate_left _⟩

/-- Witness for C10 at a concrete two-level tree. -/
theorem rotations_preserve_inorder_witness :
    inorder (rotate_right (Tree.node (2 : Int)
        (Tree.node 1 Tree.nil Tree.nil 1) (Tree.node 3 Tree.nil Tree.nil 1) 2)) =
      inorder (Tree.node (2 : Int)
        (Tree.node 1 Tree.nil Tree.nil 1) (Tree.node 3 Tree.nil Tree.nil 1) 2) :=
  (rotations_preserve_inorder 2 _ _ 2).1 (by decide)

end BST

/-! ## Search and insertion -/

namespace BST

namespace Tree

variable {α : Type u} [LinearOrder α]

theorem search_eq_mem {t : Tree α} (ht : Ordered t) (x : α) :
    search t x = true ↔ x ∈ inorder t := by
  induction t with
  | nil => simp [search, inorder]
  | node v l r h ihl ihr =>
    obtain ⟨hl, hr, hlv, hvr⟩ := ordered_node.mp ht
    simp only [search, inorder, List.mem_append, List.mem_cons]
    by_cases hxv : x < v
    · rw [if_pos hxv, ihl hl]
      constructor
      · exact Or.inl
      · rintro (hx | rfl | hx)
        · exact hx
        · exact absurd hxv (lt_irrefl _)
        · exact absurd (hvr _ hx) (lt_asymm hxv)
    · by_cases hvx : v < x
      · rw [if_neg hxv, if_pos hvx, ihr hr]
        constructor
        · exact fun hx => Or.inr (Or.inr hx)
        · rintro (hx | rfl | hx)
          · exact absurd (hlv _ hx) (lt_asymm hvx)
          · exact absurd hvx (lt_irrefl _)
          · exact hx
      · have hx : x = v := le_antisymm (not_lt.mp hvx) (not_lt.mp hxv)
        subst hx
        simp [if_neg hxv, if_neg hvx]

theorem mem_insert {t : Tree α} (x y : α) :
    x ∈ inorder (Tree.insert t y) ↔ x = y ∨ x ∈ inorder t := by
  induction t with
  | nil => simp [Tree.insert, inorder]
  | node v l r h ihl ihr =>
    simp only [Tree.insert]
    by_cases hvy : v < y
    · rw [if_pos hvy, inorder_balance, inorder_update_height]
      simp only [inorder, List.mem_append, List.mem_cons, ihr]
      tauto
    · by_cases hyv : y < v
      · rw [if_neg hvy, if_pos hyv, inorder_balance, inorder_update_height]
        simp only [inorder, List.mem_append, List.mem_cons, ihl]
        tauto
      · have hyv' : y = v := le_antisymm (not_lt.mp hvy) (not_lt.mp hyv)
        subst hyv'
        rw [if_neg hvy, if_neg hyv]
        simp only [inorder, List.mem_append, List.mem_cons]
        constructor
        · exact Or.inr
        · rintro (rfl | hx)
          · exact Or.inr (Or.inl rfl)
          · exact hx

theorem ordered_insert {t : Tree α} (ht : Ordered t) (y : α) :
    Ordered (Tree.insert t y) := by
  induction t with
  | nil =>
    simp only [Tree.insert, Ordered, inorder]
    exact List.sorted_singleton y
  | node v l r h ihl ihr =>
    obtain ⟨hl, hr, hlv, hvr⟩ := ordered_node.mp ht
    simp only [Tree.insert]
    by_cases hvy : v < y
    · rw [if_pos hvy, ordered_balance, ordered_update_height, ordered_node]
      refine ⟨hl, ihr hr, hlv, fun z hz => ?_⟩
      rcases (mem_insert z y).mp hz with rfl | hz
      · exact hvy
      · exact hvr z hz
    · by_cases hyv : y < v
      · rw [if_neg hvy, if_pos hyv, ordered_balance, ordered_update_height, ordered_node]
        refine ⟨ihl hl, hr, fun z hz => ?_, hvr⟩
        rcases (mem_insert z y).mp hz with rfl | hz
        · exact hyv
        · exact hlv z hz
      · rw [if_neg hvy, if_neg hyv]
        exact ht

theorem minimumFrom_headD : ∀ (t : Tree α) (v : α), minimumFrom v t = (inorder t).headD v
  | .nil, v => rfl
  | .node lv ll lr lh, v => by
    rw [minimumFrom, minimumFrom_headD ll lv]
    show _ = (inorder ll ++ lv :: inorder lr).headD v
    cases hl : inorder ll with
    | nil => simp [hl]
    | cons a tl => simp [hl]

theorem minimumFrom_cons (v : α) (l r : Tree α) (h : Nat) :
    ∃ rest, inorder (Tree.node v l r h) = minimumFrom v l :: rest := by
  rw [minimumFrom_headD]
  cases hl : inorder l with
  | nil => exact ⟨inorder r, by simp [inorder, hl]⟩
  | cons a tl => exact ⟨tl ++ v :: inorder r, by simp [inorder, hl]⟩

theorem minimumFrom_mem (v : α) (l r : Tree α) (h : Nat) :
    minimumFrom v l ∈ inorder (Tree.node v l r h) := by
  obtain ⟨rest, hre⟩ := minimumFrom_cons v l r h
  rw [hre]
  exact List.mem_cons_self _ _

theorem minimumFrom_le {v : α} {l r : Tree α} {h : Nat}
    (ht : Ordered (Tree.node v l r h)) :
    ∀ y ∈ inorder (Tree.node v l r h), minimumFrom v l ≤ y := by
  obtain ⟨rest, hre⟩ := minimumFrom_cons v l r h
  intro y hy
  have hs : (minimumFrom v l :: rest).Sorted (· < ·) := by
    rw [Ordered, hre] at ht
    exact ht
  rw [hre] at hy
  rcases List.mem_cons.mp hy with rfl | hy
  · exact le_refl _
  · exact le_of_lt (List.rel_of_sorted_cons hs y hy)

theorem mem_inorder_node {x v : α} {l r : Tree α} {h : Nat} :
    x ∈ inorder (Tree.node v l r h) ↔ x ∈ inorder l ∨ x = v ∨ x ∈ inorder r := by
  show x ∈ inorder l ++ v :: inorder r ↔ _
  simp

theorem floor_spec : ∀ {t : Tree α}, Ordered t → ∀ v,
    (∀ w, floor t v = some w → w ∈ inorder t ∧ w ≤ v ∧ ∀ y ∈ inorder t, y ≤ v → y ≤ w) ∧
    (floor t v = none → ∀ y ∈ inorder t, v < y) := by
  intro t
  induction t with
  | nil =>
    intro _ v
    refine ⟨fun w hw => by simp [floor] at hw, fun _ y hy => by simp [inorder] at hy⟩
  | node nv l r h ihl ihr =>
    intro ht v
    obtain ⟨hl, hr, hlv, hvr⟩ := ordered_node.mp ht
    simp only [floor]
    by_cases hvnv : v < nv
    · rw [if_pos hvnv]
      obtain ⟨ihl1, ihl2⟩ := ihl hl v
      constructor
      · intro w hw
        obtain ⟨hw_mem, hw_le, hw_max⟩ := ihl1 w hw
        refine ⟨mem_inorder_node.mpr (Or.inl hw_mem), hw_le, fun y hy hyv => ?_⟩
        rcases mem_inorder_node.mp hy with hy | rfl | hy
        · exact hw_max y hy hyv
        · exact absurd (lt_of_le_of_lt hyv hvnv) (lt_irrefl _)
        · exact absurd (lt_of_le_of_lt hyv hvnv) (lt_asymm (hvr y hy))
      · intro hnone y hy
        rcases mem_inorder_node.mp hy with hy | rfl | hy
        · exact ihl2 hnone y hy
        · exact hvnv
        · exact hvnv.trans (hvr y hy)
    · by_cases hnvv : nv < v
      · rw [if_neg hvnv, if_pos hnvv]
        obtain ⟨ihr1, ihr2⟩ := ihr hr v
        cases hfr : floor r v with
        | some w =>
          simp only [hfr]
          obtain ⟨hw_mem, hw_le, hw_max⟩ := ihr1 w hfr
          constructor
          · intro w' hw'
            obtain rfl : w = w' := by injection hw'
            refine ⟨mem_inorder_node.mpr (Or.inr (Or.inr hw_mem)), hw_le,
              fun y hy hyv => ?_⟩
            rcases mem_inorder_node.mp hy with hy | rfl | hy
            · exact le_of_lt ((hlv y hy).trans (hvr w hw_mem))
            · exact le_of_lt (hvr w hw_mem)
            · exact hw_max y hy hyv
          · intro hnone
            exact absurd hnone (by simp)
        | none =>
          simp only [hfr]
          constructor
          · intro w' hw'
            obtain rfl : nv = w' := by injection hw'
            refine ⟨mem_inorder_node.mpr (Or.inr (Or.inl rfl)), le_of_lt hnvv,
              fun y hy hyv => ?_⟩
            rcases mem_inorder_node.mp hy with hy | rfl | hy
            · exact le_of_lt (hlv y hy)
            · exact le_refl _
            · exact absurd hyv (not_le.mpr (ihr2 hfr y hy))
          · intro hnone
            exact absurd hnone (by simp)
      · have hveq : nv = v := le_antisymm (not_lt.mp hvnv) (not_lt.mp hnvv)
        rw [if_neg hvnv, if_neg hnvv]
        constructor
        · intro w hw
          obtain rfl : nv = w := by injection hw
          refine ⟨mem_inorder_node.mpr (Or.inr (Or.inl rfl)), le_of_eq hveq,
            fun y hy hyv => ?_⟩
          rcases mem_inorder_node.mp hy with hy | rfl | hy
          · exact le_of_lt (hlv y hy)
          · exact le_refl _
          · exact absurd (hvr y hy) (not_lt.mpr (hveq ▸ hyv))
        · intro hnone
          exact absurd hnone (by simp)

theorem ceil_spec : ∀ {t : Tree α}, Ordered t → ∀ v,
    (∀ w, ceil t v = some w → w ∈ inorder t ∧ v ≤ w ∧ ∀ y ∈ inorder t, v ≤ y → w ≤ y) ∧
    (ceil t v = none → ∀ y ∈ inorder t, y < v) := by
  intro t
  induction t with
  | nil =>
    intro _ v
    refine ⟨fun w hw => by simp [ceil] at hw, fun _ y hy => by simp [inorder] at hy⟩
  | node nv l r h ihl ihr =>
    intro ht v
    obtain ⟨hl, hr, hlv, hvr⟩ := ordered_node.mp ht
    simp only [ceil]
    by_cases hnvv : nv < v
    · rw [if_pos hnvv]
      obtain ⟨ihr1, ihr2⟩ := ihr hr v
      constructor
      · intro w hw
        obtain ⟨hw_mem, hw_le, hw_min⟩ := ihr1 w hw
        refine ⟨mem_inorder_node.mpr (Or.inr (Or.inr hw_mem)), hw_le,
          fun y hy hyv => ?_⟩
        rcases mem_inorder_node.mp hy with hy | rfl | hy
        · exact absurd (lt_of_lt_of_le ((hlv y hy).trans hnvv) hyv) (lt_irrefl _)
        · exact absurd (lt_of_lt_of_le hnvv hyv) (lt_irrefl _)
        · exact hw_min y hy hyv
      · intro hnone y hy
        rcases mem_inorder_node.mp hy with hy | rfl | hy
        · exact (hlv y hy).trans hnvv
        · exact hnvv
        · exact ihr2 hnone y hy
    · by_cases hvnv : v < nv
      · rw [if_neg hnvv, if_pos hvnv]
        obtain ⟨ihl1, ihl2⟩ := ihl hl v
        cases hfl : ceil l v with
        | some w =>
          simp only [hfl]
          obtain ⟨hw_mem, hw_le, hw_min⟩ := ihl1 w hfl
          constructor
          · intro w' hw'
            obtain rfl : w = w' := by injection hw'
            refine ⟨mem_inorder_node.mpr (Or.inl hw_mem), hw_le,
              fun y hy hyv => ?_⟩
            rcases mem_inorder_node.mp hy with hy | rfl | hy
            · exact hw_min y hy hyv
            · exact le_of_lt (hlv w hw_mem)
            · exact le_of_lt ((hlv w hw_mem).trans (hvr y hy))
          · intro hnone
            exact absurd hnone (by simp)
        | none =>
          simp only [hfl]
          constructor
          · intro w' hw'
            obtain rfl : nv = w' := by injection hw'
            refine ⟨mem_inorder_node.mpr (Or.inr (Or.inl rfl)), le_of_lt hvnv,
              fun y hy hyv => ?_⟩
            rcases mem_inorder_node.mp hy with hy | rfl | hy
            · exact absurd hyv (not_le.mpr (ihl2 hfl y hy))
            · exact le_refl _
            · exact le_of_lt (hvr y hy)
          · intro hnone
            exact absurd hnone (by simp)
      · have hveq : nv = v := le_antisymm (not_lt.mp (hvnv)) (not_lt.mp (hnvv))
        rw [if_neg hnvv, if_neg hvnv]
        constructor
        · intro w hw
          obtain rfl : nv = w := by injection hw
          refine ⟨mem_inorder_node.mpr (Or.inr (Or.inl rfl)), le_of_eq hveq.symm,
            fun y hy hyv => ?_⟩
          rcases mem_inorder_node.mp hy with hy | rfl | hy
          · exact absurd (hlv y hy) (not_lt.mpr (hveq ▸ hyv))
          · exact le_refl _
          · exact le_of_lt (hvr y hy)
        · intro hnone
          exact absurd hnone (by simp)

theorem floor_mem_self : ∀ {t : Tree α}, Ordered t → ∀ v, v ∈ inorder t →
    floor t v = some v := by
  intro t
  induction t with
  | nil => intro _ v hv; simp [inorder] at hv
  | node nv l r h ihl ihr =>
    intro ht v hv
    obtain ⟨hl, hr, hlv, hvr⟩ := ordered_node.mp ht
    simp only [floor]
    rcases mem_inorder_node.mp hv with hv | rfl | hv
    · rw [if_pos (hlv v hv)]
      exact ihl hl v hv
    · rw [if_neg (lt_irrefl v), if_neg (lt_irrefl v)]
    · rw [if_neg (not_lt.mpr (le_of_lt (hvr v hv))), if_pos (hvr v hv),
        ihr hr v hv]

theorem ceil_mem_self : ∀ {t : Tree α}, Ordered t → ∀ v, v ∈ inorder t →
    ceil t v = some v := by
  intro t
  induction t with
  | nil => intro _ v hv; simp [inorder] at hv
  | node nv l r h ihl ihr =>
    intro ht v hv
    obtain ⟨hl, hr, hlv, hvr⟩ := ordered_node.mp ht
    simp only [ceil]
    rcases mem_inorder_node.mp hv with hv | rfl | hv
    · rw [if_neg (not_lt.mpr (le_of_lt (hlv v hv))), if_pos (hlv v hv),
        ihl hl v hv]
    · rw [if_neg (lt_irrefl v), if_neg (lt_irrefl v)]
    · rw [if_pos (hvr v hv)]
      exact ihr hr v hv

end Tree

open Tree in
/-- C4: the claim fails on the code.  In the Equal-with-two-children arm of
`Node::remove` the binding taken from `node.left` is never restored, so the
whole left subtree is dropped.  After `insert 2, 1, 3; remove 2` the value 1
was inserted and never removed, yet `search 1` answers false while the
reference membership semantics answers true; likewise, in the repository's
own `test_remove` scenario (insert 5, 3, 7, 2, 4, 6, 8; remove 5) `search 3`
answers false although the test asserts it to be true. -/
theorem search_loses_left_subtree_after_remove :
    (search (run [Op.ins (2 : Int), .ins 1, .ins 3, .del 2]) 1 = false ∧
      memAfter [Op.ins (2 : Int), .ins 1, .ins 3, .del 2] 1 = true) ∧
    search (run [Op.ins (5 : Int), .ins 3, .ins 7, .ins 2, .ins 4, .ins 6,
      .ins 8, .del 5]) 3 = false := by
  refine ⟨⟨?_, ?_⟩, ?_⟩
  · decide
  · decide
  · decide

open Tree in
/-- C5: on any tree with the search-tree property, `floor` returns the
greatest stored value that is at most the query (none when every stored
value exceeds it), `ceil` returns the least stored value that is at least
the query (none when every stored value is below it), and both return the
query itself whenever it is a member. -/
theorem floor_ceil_correct {α : Type u} [LinearOrder α]
    (t : Tree α) (ht : Ordered t) (v : α) :
    (∀ w, floor t v = some w →
      w ∈ inorder t ∧ w ≤ v ∧ ∀ y ∈ inorder t, y ≤ v → y ≤ w) ∧
    (floor t v = none → ∀ y ∈ inorder t, v < y) ∧
    (∀ w, ceil t v = some w →
      w ∈ inorder t ∧ v ≤ w ∧ ∀ y ∈ inorder t, v ≤ y → w ≤ y) ∧
    (ceil t v = none → ∀ y ∈ inorder t, y < v) ∧
    (v ∈ inorder t → floor t v = some v ∧ ceil t v = some v) := by
  obtain ⟨hf1, hf2⟩ := floor_spec ht v
  obtain ⟨hc1, hc2⟩ := ceil_spec ht v
  exact ⟨hf1, hf2, hc1, hc2,
    fun hv => ⟨floor_mem_self ht v hv, ceil_mem_self ht v hv⟩⟩

namespace Tree

theorem stackWeight_push : ∀ (t : Tree α) (s : List (α × Tree α)),
    stackWeight (stack_push_left s t) = stackWeight s + size t := by
  intro t
  induction t with
  | nil => intro s; simp [stack_push_left, size]
  | node v l r h ihl ihr =>
    intro s
    show stackWeight (stack_push_left ((v, r) :: s) l) = _
    rw [ihl]
    show 1 + size r + stackWeight s + size l = stackWeight s + (1 + size l + size r)
    omega

theorem stackContents_push : ∀ (t : Tree α) (s : List (α × Tree α)),
    stackContents (stack_push_left s t) = inorder t ++ stackContents s := by
  intro t
  induction t with
  | nil => intro s; simp [stack_push_left, inorder]
  | node v l r h ihl ihr =>
    intro s
    show stackContents (stack_push_left ((v, r) :: s) l) = _
    rw [ihl]
    show inorder l ++ (v :: inorder r ++ stackContents s) =
      (inorder l ++ v :: inorder r) ++ stackContents s
    simp [List.append_assoc]

theorem drainAux_spec : ∀ (fuel : Nat) (s : List (α × Tree α)),
    stackWeight s ≤ fuel → drainAux fuel s = stackContents s := by
  intro fuel
  induction fuel with
  | zero =>
    intro s hs
    cases s with
    | nil => rfl
    | cons p s' =>
      exfalso
      have h1 : 1 + size p.2 + stackWeight s' ≤ 0 := hs
      omega
  | succ fuel ih =>
    intro s hs
    cases s with
    | nil => rfl
    | cons p s' =>
      obtain ⟨v, r⟩ := p
      have hw : stackWeight (stack_push_left s' r) ≤ fuel := by
        have h1 := stackWeight_push r s'
        have h2 : 1 + size r + stackWeight s' ≤ fuel + 1 := hs
        omega
      show v :: drainAux fuel (stack_push_left s' r) =
        v :: inorder r ++ stackContents s'
      rw [ih _ hw, stackContents_push]
      simp

theorem drain_eq_inorder (t : Tree α) : drain t = inorder t := by
  rw [drain, drainAux_spec _ _ (le_refl _), iterInit, stackContents_push]
  simp [stackContents]

theorem iterNext_exhausted (s : List (α × Tree α)) (h : (iterNext s).1 = none) :
    (iterNext s).2 = s ∧ (iterNext ((iterNext s).2)).1 = none := by
  cases s with
  | nil => exact ⟨rfl, rfl⟩
  | cons p s' =>
    obtain ⟨v, r⟩ := p
    simp [iterNext] at h

end Tree

open Tree in
/-- C6: on any tree with the search-tree property the iterator yields the
in-order traversal: exactly the stored values, each exactly once, in
strictly ascending order; and once `next` has answered "no value" (which
happens exactly on the empty stack) the state is unchanged and every later
call answers "no value" again. -/
theorem iterator_spec {α : Type u} [LinearOrder α] (t : Tree α) (ht : Ordered t) :
    drain t = inorder t ∧
    (drain t).Sorted (· < ·) ∧
    (∀ x, x ∈ drain t ↔ x ∈ inorder t) ∧
    (drain t).Nodup ∧
    (∀ s : List (α × Tree α), (iterNext s).1 = none →
      (iterNext s).2 = s ∧ (iterNext ((iterNext s).2)).1 = none) := by
  have hd := drain_eq_inorder t
  refine ⟨hd, ?_, fun x => by rw [hd], ?_, fun s hs => iterNext_exhausted s hs⟩
  · rw [hd]; exact ht
  · rw [hd]; exact ht.nodup

open Tree in
/-- Witness for C6 at a concrete ordered three-node tree. -/
theorem iterator_spec_witness :
    drain (Tree.node (2 : Int) (Tree.node 1 Tree.nil Tree.nil 1)
        (Tree.node 3 Tree.nil Tree.nil 1) 2) =
      inorder (Tree.node (2 : Int) (Tree.node 1 Tree.nil Tree.nil 1)
        (Tree.node 3 Tree.nil Tree.nil 1) 2) :=
  (iterator_spec (Tree.node (2 : Int) (Tree.node 1 Tree.nil Tree.nil 1)
    (Tree.node 3 Tree.nil Tree.nil 1) 2) (by decide)).1

open Tree in
/-- Witness for C5 on a concrete three-node tree at a member query. -/
theorem floor_ceil_correct_witness :
    floor (Tree.node (2 : Int) (Tree.node 1 Tree.nil Tree.nil 1)
        (Tree.node 3 Tree.nil Tree.nil 1) 2) 2 = some 2 ∧
      ceil (Tree.node (2 : Int) (Tree.node 1 Tree.nil Tree.nil 1)
        (Tree.node 3 Tree.nil Tree.nil 1) 2) 2 = some 2 :=
  (floor_ceil_correct (Tree.node (2 : Int) (Tree.node 1 Tree.nil Tree.nil 1)
    (Tree.node 3 Tree.nil Tree.nil 1) 2) (by decide) 2).2.2.2.2 (by decide)

theorem kerninghan_zero : kerninghan 0 = 0 := by
  rw [kerninghan]
  simp

theorem kerninghan_pos (n : Nat) (hn : n ≠ 0) :
    kerninghan n = kerninghan (n &&& (n - 1)) + 1 := by
  rw [kerninghan]
  rw [dif_neg hn]

theorem setBitCount_zero : setBitCount 0 = 0 := by
  rw [setBitCount]
  simp

theorem setBitCount_two_mul (m : Nat) : setBitCount (2 * m) = setBitCount m := by
  by_cases hm : m = 0
  · subst hm; rfl
  · rw [setBitCount]
    rw [if_neg (by omega : ¬ 2 * m = 0)]
    have h1 : 2 * m % 2 = 0 := Nat.mul_mod_right 2 m
    have h2 : 2 * m / 2 = m := by omega
    rw [h1, h2]
    exact Nat.zero_add _

theorem setBitCount_two_mul_add_one (m : Nat) :
    setBitCount (2 * m + 1) = setBitCount m + 1 := by
  rw [setBitCount]
  rw [if_neg (by omega : ¬ 2 * m + 1 = 0)]
  have h1 : (2 * m + 1) % 2 = 1 := by omega
  have h2 : (2 * m + 1) / 2 = m := by omega
  rw [h1, h2]
  omega

theorem land_odd_pred (m : Nat) : (2 * m + 1) &&& (2 * m) = 2 * m := by
  apply Nat.eq_of_testBit_eq
  intro i
  rw [Nat.testBit_land]
  cases i with
  | zero =>
    have h0 : Nat.testBit (2 * m) 0 = false := by
      simp [Nat.testBit_zero, Nat.mul_mod_right]
    rw [h0, Bool.and_false]
  | succ i =>
    simp only [Nat.testBit_succ]
    have h1 : (2 * m + 1) / 2 = m := by omega
    have h2 : 2 * m / 2 = m := by omega
    rw [h1, h2, Bool.and_self]

theorem land_even_pred (m : Nat) (hm : 0 < m) :
    (2 * m) &&& (2 * m - 1) = 2 * (m &&& (m - 1)) := by
  apply Nat.eq_of_testBit_eq
  intro i
  rw [Nat.testBit_land]
  cases i with
  | zero =>
    have h0 : Nat.testBit (2 * m) 0 = false := by
      simp [Nat.testBit_zero, Nat.mul_mod_right]
    have h1 : Nat.testBit (2 * (m &&& (m - 1))) 0 = false := by
      simp [Nat.testBit_zero, Nat.mul_mod_right]
    rw [h0, h1, Bool.false_and]
  | succ i =>
    simp only [Nat.testBit_succ]
    have h2 : 2 * m / 2 = m := by omega
    have h3 : (2 * m - 1) / 2 = m - 1 := by omega
    have h4 : 2 * (m &&& (m - 1)) / 2 = m &&& (m - 1) := by omega
    rw [h2, h3, h4, Nat.testBit_land]

theorem kerninghan_eq_setBitCount : ∀ n, kerninghan n = setBitCount n := by
  intro n
  induction n using Nat.strong_induction_on with
  | _ n ih =>
    rcases Nat.even_or_odd n with he | ho
    · obtain ⟨m, hm⟩ := he
      have hm2 : n = 2 * m := by omega
      subst hm2
      by_cases hm0 : m = 0
      · subst hm0
        rw [show 2 * 0 = 0 by rfl, kerninghan_zero, setBitCount_zero]
      · have hw : m &&& (m - 1) ≤ m - 1 := Nat.and_le_right
        have hmpos : 0 < m := Nat.pos_of_ne_zero hm0
        rw [kerninghan_pos (2 * m) (by omega), land_even_pred m hmpos]
        rw [ih (2 * (m &&& (m - 1))) (by omega)]
        rw [setBitCount_two_mul, setBitCount_two_mul]
        have hkm := kerninghan_pos m hm0
        rw [ih m (by omega)] at hkm
        rw [ih (m &&& (m - 1)) (by omega)] at hkm
        omega
    · obtain ⟨m, hm⟩ := ho
      subst hm
      rw [kerninghan_pos (2 * m + 1) (by omega)]
      have h1 : 2 * m + 1 - 1 = 2 * m := by omega
      rw [h1, land_odd_pred]
      rw [ih (2 * m) (by omega)]
      rw [setBitCount_two_mul, setBitCount_two_mul_add_one]

/-- C9: the population-count loop terminates on every 32-bit input (the
model is a total function, its recursion measure being the strict decrease
of `n &&& (n - 1)`) and returns the number of set bits in the binary
representation of its argument. -/
theorem kerninghan_counts_set_bits (n : Nat) (hn : n < 2 ^ 32) :
    kerninghan n = setBitCount n :=
  kerninghan_eq_setBitCount n

/-- Witness for C9 at `n = 11` (binary 1011, three set bits). -/
theorem kerninghan_counts_set_bits_witness :
    11 < 2 ^ 32 ∧ kerninghan 11 = setBitCount 11 :=
  ⟨by norm_num, kerninghan_counts_set_bits 11 (by norm_num)⟩

end BST
